import Mathlib

/-!
Verification of the SSA middle-end optimization passes of this repository
(SCCP — sparse conditional constant propagation, CSE with value hoisting,
LICM — loop invariant code motion) against their natural-language
specification.  The Go sources are shallowly embedded: Go `int64` becomes
`Int` with explicit wrapping where the source truncates, Go slices become
`List`, Go maps and dense arrays indexed by id become Lean functions, and
Go code that can panic at run time (integer division by zero) returns
`Option` with `none` marking the panic.
-/

namespace SCCP

/-- Lattice element kinds, mirroring `latticeKind` in sccp.go
(`latticeTop`, `latticeConst`, `latticeBottom` declared by `iota`,
so their integer values are 0, 1, 2 respectively). -/
inductive latticeKind where
  | latticeTop
  | latticeConst
  | latticeBottom
deriving DecidableEq, Repr, Inhabited

export latticeKind (latticeTop latticeConst latticeBottom)

/-- The integer value of a `latticeKind` (Go declares the kinds by `iota`,
so `latticeTop` is the integer 0). Comparisons of a kind against a bare
integer in the source go through this function. -/
def latticeKind.toInt : latticeKind → Int
  | latticeTop => 0
  | latticeConst => 1
  | latticeBottom => 2

/-- `latticeValue` from sccp.go: a kind together with 64 bits of payload. -/
structure latticeValue where
  kind : latticeKind
  bits : Int
deriving DecidableEq, Repr, Inhabited

/-- The fragment of the SSA opcode enumeration used by the SCCP pass.
Constructor names drop the `Op` prefix of the Go names. -/
inductive Op where
  | ConstBool | ConstString | ConstNil
  | Const8 | Const16 | Const32 | Const64 | Const32F | Const64F
  | ConstInterface | ConstSlice
  | Div8 | Div8u | Div16 | Div16u | Div32 | Div32u | Div64 | Div64u
  | AndB | OrB
  | Phi | Copy
  | Cvt32Fto32 | Cvt32Fto64F | Cvt64Fto32F
deriving DecidableEq, Repr, Inhabited

/-- Ordinal position of each opcode in the generic-ops enumeration.  The
concrete numbering lives outside this repository fragment; the relative
order is reconstructed from the enumeration-order listings inside the
sources themselves (the index comments of `foldMap` in sccp.go and the
`specSafeV` listing in licm.go, both of which walk the enumeration in
order: `... Div8, Div8u, ..., Div64u, ... ConstBool, ConstString,
ConstNil, Const8, Const16, Const32, Const64, Const32F, Const64F,
ConstInterface, ConstSlice, ... Cvt32Fto32, ..., Cvt32Fto64F,
Cvt64Fto32F ...`).  Only the relative order and contiguity of these
opcodes matter for the range tests in the source; absolute gaps are
immaterial. -/
def Op.idx : Op → Nat
  | .Div8 => 30 | .Div8u => 31 | .Div16 => 32 | .Div16u => 33
  | .Div32 => 34 | .Div32u => 35 | .Div64 => 36 | .Div64u => 37
  | .AndB => 100 | .OrB => 101
  | .Phi => 110 | .Copy => 111
  | .ConstBool => 120 | .ConstString => 121 | .ConstNil => 122
  | .Const8 => 123 | .Const16 => 124 | .Const32 => 125 | .Const64 => 126
  | .Const32F => 127 | .Const64F => 128
  | .ConstInterface => 129 | .ConstSlice => 130
  | .Cvt32Fto32 => 140 | .Cvt32Fto64F => 150 | .Cvt64Fto32F => 151

/-- `isConst` from sccp.go:
`op == OpConstBool || OpConst8 <= op && op <= OpConst64`. -/
def isConst (op : Op) : Bool :=
  op = Op.ConstBool || (Op.Const8.idx ≤ op.idx && op.idx ≤ Op.Const64.idx)

/-- Reduce an `Int` to the signed two's-complement value of width `w`
(Go's conversion to `int8`/`int16`/`int32`/`int64`). -/
def wrapS (w : Nat) (x : Int) : Int :=
  (x + 2 ^ (w - 1)) % 2 ^ w - 2 ^ (w - 1)

/-- Reduce an `Int` to the unsigned value of width `w`
(Go's conversion to `uint8`/`uint16`/`uint32`/`uint64`). -/
def wrapU (w : Nat) (x : Int) : Int :=
  x % 2 ^ w

/-- `b2i` from the ssa package: 1 for true, 0 for false. -/
def b2i (b : Bool) : Int := if b then 1 else 0

/-- Go's signed integer division of width `w` on already-wrapped operands:
truncated quotient, with the single overflowing case
`minInt(w) / -1 = minInt(w)` (the Go spec defines it to wrap), and a
run-time panic on a zero divisor, modelled as `none`. -/
def goDivS (w : Nat) (x y : Int) : Option Int :=
  if wrapS w y = 0 then none
  else some (wrapS w ((wrapS w x).tdiv (wrapS w y)))

/-- Go's unsigned integer division of width `w`, reinterpreted back as a
signed value of width `w` (the fold functions do
`int64(intN(uintN(a[0]) / uintN(a[1])))`); `none` models the run-time
panic on a zero divisor. -/
def goDivU (w : Nat) (x y : Int) : Option Int :=
  if wrapU w y = 0 then none
  else some (wrapS w ((wrapU w x).tdiv (wrapU w y)))

/-- `foldDiv8` from sccp.go.  The guards mirror the source line by line;
note the third guard is the source's `k[1] == 0`, which compares the
divisor's lattice *kind* (as an integer, 0 = `latticeTop`) with zero and
not the divisor's bits.  The division itself is `int8(a[0]) / int8(a[1])`,
which panics in Go when the divisor is zero (`none` here). -/
def foldDiv8 (k : List latticeKind) (a : List Int) : Option latticeValue :=
  if k[0]! = latticeBottom ∨ k[1]! = latticeBottom then
    some { kind := latticeBottom, bits := 0 }
  else if k[0]! = latticeTop ∨ k[1]! = latticeTop then
    some { kind := latticeTop, bits := 0 }
  else if (k[1]!).toInt = 0 then
    some { kind := latticeBottom, bits := 0 }
  else
    (goDivS 8 a[0]! a[1]!).map fun q => { kind := latticeConst, bits := q }

/-- `foldDiv16` from sccp.go (same structure as `foldDiv8`). -/
def foldDiv16 (k : List latticeKind) (a : List Int) : Option latticeValue :=
  if k[0]! = latticeBottom ∨ k[1]! = latticeBottom then
    some { kind := latticeBottom, bits := 0 }
  else if k[0]! = latticeTop ∨ k[1]! = latticeTop then
    some { kind := latticeTop, bits := 0 }
  else if (k[1]!).toInt = 0 then
    some { kind := latticeBottom, bits := 0 }
  else
    (goDivS 16 a[0]! a[1]!).map fun q => { kind := latticeConst, bits := q }

/-- `foldDiv32` from sccp.go. -/
def foldDiv32 (k : List latticeKind) (a : List Int) : Option latticeValue :=
  if k[0]! = latticeBottom ∨ k[1]! = latticeBottom then
    some { kind := latticeBottom, bits := 0 }
  else if k[0]! = latticeTop ∨ k[1]! = latticeTop then
    some { kind := latticeTop, bits := 0 }
  else if (k[1]!).toInt = 0 then
    some { kind := latticeBottom, bits := 0 }
  else
    (goDivS 32 a[0]! a[1]!).map fun q => { kind := latticeConst, bits := q }

/-- `foldDiv64` from sccp.go (`bits: a[0] / a[1]` on plain `int64`). -/
def foldDiv64 (k : List latticeKind) (a : List Int) : Option latticeValue :=
  if k[0]! = latticeBottom ∨ k[1]! = latticeBottom then
    some { kind := latticeBottom, bits := 0 }
  else if k[0]! = latticeTop ∨ k[1]! = latticeTop then
    some { kind := latticeTop, bits := 0 }
  else if (k[1]!).toInt = 0 then
    some { kind := latticeBottom, bits := 0 }
  else
    (goDivS 64 a[0]! a[1]!).map fun q => { kind := latticeConst, bits := q }

/-- `foldDivU8` from sccp.go. -/
def foldDivU8 (k : List latticeKind) (a : List Int) : Option latticeValue :=
  if k[0]! = latticeBottom ∨ k[1]! = latticeBottom then
    some { kind := latticeBottom, bits := 0 }
  else if k[0]! = latticeTop ∨ k[1]! = latticeTop then
    some { kind := latticeTop, bits := 0 }
  else if (k[1]!).toInt = 0 then
    some { kind := latticeBottom, bits := 0 }
  else
    (goDivU 8 a[0]! a[1]!).map fun q => { kind := latticeConst, bits := q }

/-- `foldDivU16` from sccp.go. -/
def foldDivU16 (k : List latticeKind) (a : List Int) : Option latticeValue :=
  if k[0]! = latticeBottom ∨ k[1]! = latticeBottom then
    some { kind := latticeBottom, bits := 0 }
  else if k[0]! = latticeTop ∨ k[1]! = latticeTop then
    some { kind := latticeTop, bits := 0 }
  else if (k[1]!).toInt = 0 then
    some { kind := latticeBottom, bits := 0 }
  else
    (goDivU 16 a[0]! a[1]!).map fun q => { kind := latticeConst, bits := q }

/-- `foldDivU32` from sccp.go. -/
def foldDivU32 (k : List latticeKind) (a : List Int) : Option latticeValue :=
  if k[0]! = latticeBottom ∨ k[1]! = latticeBottom then
    some { kind := latticeBottom, bits := 0 }
  else if k[0]! = latticeTop ∨ k[1]! = latticeTop then
    some { kind := latticeTop, bits := 0 }
  else if (k[1]!).toInt = 0 then
    some { kind := latticeBottom, bits := 0 }
  else
    (goDivU 32 a[0]! a[1]!).map fun q => { kind := latticeConst, bits := q }

/-- `foldDivU64` from sccp.go. -/
def foldDivU64 (k : List latticeKind) (a : List Int) : Option latticeValue :=
  if k[0]! = latticeBottom ∨ k[1]! = latticeBottom then
    some { kind := latticeBottom, bits := 0 }
  else if k[0]! = latticeTop ∨ k[1]! = latticeTop then
    some { kind := latticeTop, bits := 0 }
  else if (k[1]!).toInt = 0 then
    some { kind := latticeBottom, bits := 0 }
  else
    (goDivU 64 a[0]! a[1]!).map fun q => { kind := latticeConst, bits := q }

/-- `foldAndB` from sccp.go: `false && x == false` short circuit first,
then the BOTTOM/TOP propagation, then the two-constant case. -/
def foldAndB (k : List latticeKind) (a : List Int) : Option latticeValue :=
  if (k[0]! = latticeConst ∧ a[0]! = 0) ∨ (k[1]! = latticeConst ∧ a[1]! = 0) then
    some { kind := latticeConst, bits := 0 }
  else if k[0]! = latticeBottom ∨ k[1]! = latticeBottom then
    some { kind := latticeBottom, bits := 0 }
  else if k[0]! = latticeTop ∨ k[1]! = latticeTop then
    some { kind := latticeTop, bits := 0 }
  else
    some { kind := latticeConst, bits := b2i (a[0]! ≠ 0 ∧ a[1]! ≠ 0) }

/-- `foldOrB` from sccp.go: `true || x == true` short circuit first. -/
def foldOrB (k : List latticeKind) (a : List Int) : Option latticeValue :=
  if (k[0]! = latticeConst ∧ a[0]! = 1) ∨ (k[1]! = latticeConst ∧ a[1]! = 1) then
    some { kind := latticeConst, bits := 1 }
  else if k[0]! = latticeBottom ∨ k[1]! = latticeBottom then
    some { kind := latticeBottom, bits := 0 }
  else if k[0]! = latticeTop ∨ k[1]! = latticeTop then
    some { kind := latticeTop, bits := 0 }
  else
    some { kind := latticeConst, bits := b2i (a[0]! ≠ 0 ∨ a[1]! ≠ 0) }

/-- `foldCopy` from sccp.go. -/
def foldCopy (a : List Int) : Int := a[0]!

/-- Truncation of the IEEE-754 binary32 value encoded by the low 32 bits
of `x` toward zero, as a signed 32-bit integer — Go's
`int64(int32(math.Float32frombits(uint32(x))))` for in-range finite
inputs.  Decoding by integer arithmetic: a normal number with exponent
field `e` and fraction field `m` has magnitude `(2^23 + m) · 2^(e-150)`,
so its truncation toward zero is `(2^23 + m) · 2^e / 2^150` in natural
division; subnormals (`e = 0`) have magnitude below 1 and truncate to 0.
(Conversion of out-of-range or non-finite values is not defined by the
Go specification; the theorems below evaluate this function only on
in-range finite inputs.) -/
def f32TruncToInt32 (x : Int) : Int :=
  let bits := (wrapU 32 x).toNat
  let s := bits / 2 ^ 31
  let e := bits / 2 ^ 23 % 2 ^ 8
  let m := bits % 2 ^ 23
  let mag : Int := if e = 0 then 0 else ((2 ^ 23 + m) * 2 ^ e / 2 ^ 150 : Nat)
  wrapS 32 (if s = 1 then -mag else mag)

/-- `foldCvt32Fto32` from sccp.go: `int64(int32(i32f(a[0])))`. -/
def foldCvt32Fto32 (a : List Int) : Int := f32TruncToInt32 a[0]!

/-- `foldFn` from sccp.go: each fold-table entry sets exactly one of the
two function fields (`fn` for the all-constants fold, `genFn` for the
general fold receiving lattice kinds); modelled as a tagged variant, as
only one of the two is ever set.  `genFn` returns `Option` because the
division folds can panic. -/
inductive foldFn where
  | fn (f : List Int → Int)
  | genFn (f : List latticeKind → List Int → Option latticeValue)

/-- `getFoldFn` from sccp.go, restricted to the opcodes modelled here:
the dense array `foldMap` (indexed by `op - OpAdd8`, with unset entries
holding two nil function pointers and reported as absent) becomes a
lookup returning `none` exactly where the source table has no entry.
In particular the source binds `OpCvt32Fto64F` and `OpCvt64Fto32F` to
`foldCvt32Fto32` (sccp.go lines 2061–2062), and has no entries for the
constant opcodes or `OpPhi`. -/
def getFoldFn : Op → Option foldFn
  | .Div8 => some (.genFn foldDiv8)
  | .Div16 => some (.genFn foldDiv16)
  | .Div32 => some (.genFn foldDiv32)
  | .Div64 => some (.genFn foldDiv64)
  | .Div8u => some (.genFn foldDivU8)
  | .Div16u => some (.genFn foldDivU16)
  | .Div32u => some (.genFn foldDivU32)
  | .Div64u => some (.genFn foldDivU64)
  | .AndB => some (.genFn foldAndB)
  | .OrB => some (.genFn foldOrB)
  | .Copy => some (.fn foldCopy)
  | .Cvt32Fto32 => some (.fn foldCvt32Fto32)
  | .Cvt32Fto64F => some (.fn foldCvt32Fto32)
  | .Cvt64Fto32F => some (.fn foldCvt32Fto32)
  | _ => none

/-- An SSA value as seen by SCCP: id, opcode, 64-bit payload and the ids
of its arguments. -/
structure Value where
  vid : Nat
  op : Op
  auxInt : Int
  args : List Nat
deriving Repr, Inhabited

/-- The lattice-evaluation core of `visitExpr` in sccp.go: computes the
new lattice value of a non-φ value from the lattice cells of its
arguments.  `none` models a Go run-time panic inside a fold function. -/
def evalExpr (cells : Nat → latticeValue) (v : Value) : Option latticeValue :=
  if isConst v.op then
    some { kind := latticeConst, bits := v.auxInt }
  else
    match getFoldFn v.op with
    | none => some { kind := latticeBottom, bits := 0 }
    | some t =>
      let lvs := v.args.map cells
      let kinds := lvs.map (·.kind)
      let args := lvs.map (·.bits)
      let nbot := (kinds.filter (· = latticeBottom)).length
      let ntop := (kinds.filter (· = latticeTop)).length
      match t with
      | .genFn g => g kinds args
      | .fn f =>
        if 0 < nbot then some { kind := latticeBottom, bits := 0 }
        else if ntop = 0 then some { kind := latticeConst, bits := f args }
        else some { kind := latticeTop, bits := 0 }

/-- Block kinds from the IR (`BlockPlain`, `BlockIf`, ... in the ssa
package), restricted to what SCCP inspects. -/
inductive BlockKind where
  | Plain | If | Ret | Exit | First
deriving DecidableEq, Repr, Inhabited

/-- An `Edge` of the CFG: destination block id and the index of the
source block in the destination's opposite edge list. -/
structure Edge where
  b : Nat
  i : Nat
deriving DecidableEq, Repr, Inhabited

/-- A basic block as seen by SCCP: id, kind, successor edges and owned
values. -/
structure Block where
  bid : Nat
  kind : BlockKind
  succs : List Edge
  values : List Value
deriving Repr, Inhabited

/-- The mutable state of the pass (`sccpState` in sccp.go): the lattice
cells (dense array indexed by value id, with the per-cell `use` and
`ctl` reverse indices as separate maps), the flow worklist and the SSA
worklist (a sparse set, hence duplicate-free insertion). -/
structure SccpState where
  cells : Nat → latticeValue
  use : Nat → List Nat
  ctl : Nat → List Block
  flowlist : List Edge
  ssalist : List Nat

/-- `sparseSet.add`: insert without duplication. -/
def sparseAdd (s : List Nat) (x : Nat) : List Nat :=
  if x ∈ s then s else s ++ [x]

/-- `propagate` from sccp.go: after `v`'s lattice value was lowered, push
its users onto the SSA worklist and, for each block controlled by `v`,
push the successor edges selected by the new lattice value. -/
def propagate (s : SccpState) (v : Value) : SccpState :=
  { s with
    ssalist := (s.use v.vid).foldl sparseAdd s.ssalist
    flowlist := s.flowlist ++ (s.ctl v.vid).flatMap fun b =>
      let lv := s.cells v.vid
      if lv.kind = latticeBottom then b.succs
      else if lv.bits = 0 then [b.succs[1]!]
      else [b.succs[0]!] }

/-- `visitExpr` from sccp.go: recompute the lattice value of a non-φ
value, store it in the cell, and propagate if the kind changed.  `none`
models the compiler panicking inside a fold function. -/
def visitExpr (s : SccpState) (v : Value) : Option SccpState :=
  (evalExpr s.cells v).map fun new =>
    let old := s.cells v.vid
    let s' := { s with cells := fun i => if i = v.vid then new else s.cells i }
    if old.kind ≠ new.kind then propagate s' v else s'

/-- The value-visiting loop of `visitExprs` in sccp.go: visit every non-φ
value of the block in order. -/
def visitBlockValues (s : SccpState) (b : Block) : Option SccpState :=
  b.values.foldlM (fun s v => if v.op = Op.Phi then pure s else visitExpr s v) s

/-- `visitExprs` from sccp.go: visit the non-φ values, then — if the
block unconditionally transfers control (`BlockPlain` or `BlockFirst`) —
append its single successor edge to the flow worklist. -/
def visitExprs (s : SccpState) (b : Block) : Option SccpState :=
  (visitBlockValues s b).map fun s' =>
    if b.kind = BlockKind.Plain ∨ b.kind = BlockKind.First then
      { s' with flowlist := s'.flowlist ++ [b.succs[0]!] }
    else s'

/-- Modelled from the spec: the fold function the spec says should be
emitted for `OpCvt32Fto64F` (`foldCvt32Fto64F`, absent from the source) —
the IEEE-754 binary64 bit pattern of widening the binary32 value encoded
by the low 32 bits of the input.  The widening is exact: zeros map to
zeros, infinities and NaNs to exponent field 2047 with the fraction
shifted up 29 bits, normal numbers rebias the exponent by 1023 − 127 and
shift the fraction up 29 bits, and subnormals normalize around the top
set bit of the fraction. -/
def cvt32Fto64F_bits (x : Int) : Int :=
  let bits := (wrapU 32 x).toNat
  let s := bits / 2 ^ 31
  let e := bits / 2 ^ 23 % 2 ^ 8
  let m := bits % 2 ^ 23
  if e = 0 ∧ m = 0 then (s * 2 ^ 63 : Nat)
  else if e = 255 then (s * 2 ^ 63 + 2047 * 2 ^ 52 + m * 2 ^ 29 : Nat)
  else if e = 0 then
    let p := Nat.log2 m
    (s * 2 ^ 63 + (p + 874) * 2 ^ 52 + (m - 2 ^ p) * 2 ^ (52 - p) : Nat)
  else (s * 2 ^ 63 + (e - 127 + 1023) * 2 ^ 52 + m * 2 ^ 29 : Nat)

end SCCP

namespace LICM

open SCCP (BlockKind)

/-- The fragment of the SSA opcode enumeration used by the LICM pass. -/
inductive Op where
  | Add64 | Mul64
  | Div32F | Div64F
  | Div8 | Div8u | Div16 | Div16u | Div32 | Div32u | Div64 | Div64u
  | Mod8 | Mod8u | Mod16 | Mod16u | Mod32 | Mod32u | Mod64 | Mod64u
  | AndB
  | Phi | Copy
  | ConstBool | ConstString | ConstNil
  | Const8 | Const16 | Const32 | Const64 | Const32F | Const64F
  | ConstInterface | ConstSlice
deriving DecidableEq, Repr, Inhabited

/-- Ordinal position in the generic-ops enumeration (see `SCCP.Op.idx`
for how the relative order is reconstructed from the source's own
enumeration-order listings; the division and modulo blocks are
contiguous, `Div8` first and `Div64u` last, `Mod8` first and `Mod64u`
last, and the constants run `ConstBool, ConstString, ConstNil, Const8,
Const16, Const32, Const64, Const32F, Const64F, ConstInterface,
ConstSlice`). -/
def Op.idx : Op → Nat
  | .Add64 => 3 | .Mul64 => 13
  | .Div32F => 20 | .Div64F => 21
  | .Div8 => 30 | .Div8u => 31 | .Div16 => 32 | .Div16u => 33
  | .Div32 => 34 | .Div32u => 35 | .Div64 => 36 | .Div64u => 37
  | .Mod8 => 40 | .Mod8u => 41 | .Mod16 => 42 | .Mod16u => 43
  | .Mod32 => 44 | .Mod32u => 45 | .Mod64 => 46 | .Mod64u => 47
  | .AndB => 100
  | .Phi => 110 | .Copy => 111
  | .ConstBool => 120 | .ConstString => 121 | .ConstNil => 122
  | .Const8 => 123 | .Const16 => 124 | .Const32 => 125 | .Const64 => 126
  | .Const32F => 127 | .Const64F => 128
  | .ConstInterface => 129 | .ConstSlice => 130

/-- An SSA value as seen by LICM.  Argument values are embedded
structurally (in SSA the use–def chains of non-φ values are acyclic, and
`checkInvariant` never recurses through a φ, so the fragment it explores
is a finite tree). -/
inductive LValue where
  | mk (vid : Nat) (op : Op) (auxInt : Int) (isMemory : Bool)
       (blkId : Nat) (args : List LValue)
deriving Repr, Inhabited

def LValue.vid : LValue → Nat | .mk n _ _ _ _ _ => n
def LValue.op : LValue → Op | .mk _ o _ _ _ _ => o
def LValue.auxInt : LValue → Int | .mk _ _ x _ _ _ => x
def LValue.isMemory : LValue → Bool | .mk _ _ _ m _ _ => m
def LValue.blkId : LValue → Nat | .mk _ _ _ _ b _ => b
def LValue.args : LValue → List LValue | .mk _ _ _ _ _ a => a

/-- `v.Block = pre` in the move loop: re-home a value to a new block. -/
def LValue.setBlk (v : LValue) (b : Nat) : LValue :=
  match v with
  | .mk n o x m _ a => .mk n o x m b a

/-- `specSafeV` from licm.go, restricted to the opcodes modelled here.
Of the modelled opcodes the source's listing contains exactly these;
notably none of the division or modulo opcodes and not `OpPhi`. -/
def specSafeV : List Op :=
  [Op.Add64, Op.Mul64, Op.AndB, Op.Copy,
   Op.ConstBool, Op.ConstString, Op.ConstNil,
   Op.Const8, Op.Const16, Op.Const32, Op.Const64, Op.Const32F, Op.Const64F,
   Op.ConstInterface, Op.ConstSlice]

/-- `specExecSafe` from licm.go: membership in the `specSafe` set built
from `specSafeV`, and otherwise — for the float divisions and the integer
division/modulo opcode ranges — the test
`OpConst8 <= a.Op && a.Op <= OpConst64F && a.AuxInt == 0`
on the divisor argument `v.Args[1]` (this is the source text verbatim,
including the comparison of `AuxInt` with 0). -/
def specExecSafe (v : LValue) : Bool :=
  if specSafeV.contains v.op then true
  else if v.op = Op.Div32F ∨ v.op = Op.Div64F
      ∨ (Op.Div8.idx ≤ v.op.idx ∧ v.op.idx ≤ Op.Div64u.idx)
      ∨ (Op.Mod8.idx ≤ v.op.idx ∧ v.op.idx ≤ Op.Mod64u.idx) then
    let a := v.args[1]!
    Op.Const8.idx ≤ a.op.idx && a.op.idx ≤ Op.Const64F.idx && a.auxInt == 0
  else false

/-- `canHoistValue` from licm.go: φ-ops, block control values and
memory-typed values are never hoisted.  The block → control-value-id map
stands in for `v.Block.Control`. -/
def canHoistValue (ctrl : Nat → Option Nat) (v : LValue) : Bool :=
  if v.op = Op.Phi then false
  else if ctrl v.blkId = some v.vid then false
  else if v.isMemory then false
  else true

/-- The loop and function context consumed by `checkInvariant`: the
strict dominance oracle `sdomA` (`sdom.isAncestor`), the block →
innermost-loop map `b2l`, the block → control-value map, and the loop's
id, header and exit blocks (with their kinds). -/
structure LoopCtx where
  sdomA : Nat → Nat → Bool
  b2l : Nat → Nat
  ctrl : Nat → Option Nat
  lpId : Nat
  headerId : Nat
  exits : List (Nat × BlockKind)

/-- `checkInvariant` from licm.go as a pure recursion (the source
memoizes results in the `inv` map; with unique SSA ids the memo only
avoids recomputation and does not change the result).  Branch order
follows the source: outside-the-loop test, `canHoistValue`, the constant
opcode range, the arguments, `specExecSafe`, and finally dominance over
every non-`BlockExit` loop exit. -/
def checkInvariant (c : LoopCtx) (v : LValue) : Bool :=
  if c.b2l v.blkId ≠ c.lpId then c.sdomA v.blkId c.headerId
  else if ¬ canHoistValue c.ctrl v then false
  else if Op.ConstBool.idx ≤ v.op.idx ∧ v.op.idx ≤ Op.ConstSlice.idx then true
  else if ¬ (v.args.attach.all fun a => checkInvariant c a.1) then false
  else if specExecSafe v then true
  else c.exits.all fun e => e.2 = BlockKind.Exit ∨ c.sdomA v.blkId e.1
termination_by v
decreasing_by
  all_goals
    cases v with
    | mk n o x m b args =>
      have h1 := List.sizeOf_lt_of_mem a.2
      simp only [LValue.args] at h1
      simp only [LValue.mk.sizeOf_spec]
      omega

/-- The pre-header search loop of `moveInvariants` in licm.go: scan the
header's predecessors, skipping those dominated by the header
(`sdom.isAncestorEq(lp.header, e.b)`); the first non-dominated one
becomes the candidate, a second one aborts with no pre-header. -/
def findPre (sdomAE : Nat → Nat → Bool) (headerId : Nat) :
    List Nat → Option Nat → Option Nat
  | [], pre => pre
  | p :: rest, pre =>
    if sdomAE headerId p then findPre sdomAE headerId rest pre
    else
      match pre with
      | some _ => none
      | none => findPre sdomAE headerId rest (some p)

/-- A basic block as seen by LICM's move loop. -/
structure LBlock where
  bid : Nat
  values : List LValue
deriving Repr, Inhabited

/-- A natural loop as consumed by `moveInvariants` (header predecessors
flattened to block ids). -/
structure Loop where
  lpId : Nat
  headerId : Nat
  headerPreds : List Nat
  containsCall : Bool
  exits : List (Nat × BlockKind)
deriving Repr, Inhabited

/-- The per-loop body of `moveInvariants` from licm.go (the recursion
into child loops is driven by the caller and merely sums the per-loop
results).  Returns the updated block list and this loop's contributions
to the `nmove` and `nohdr` counters: loops containing calls are skipped;
with no pre-header nothing moves and `nohdr` is 1; otherwise every value
of the loop's blocks whose `checkInvariant` is true is removed from its
block, re-homed to the pre-header and appended to the pre-header's
values in block-iteration order. -/
def moveInvariantsOwn (sdomA sdomAE : Nat → Nat → Bool) (b2l : Nat → Nat)
    (ctrl : Nat → Option Nat) (lp : Loop) (blocks : List LBlock) :
    List LBlock × Nat × Nat :=
  if lp.containsCall then (blocks, 0, 0)
  else
    match findPre sdomAE lp.headerId lp.headerPreds none with
    | none => (blocks, 0, 1)
    | some pre =>
      let c : LoopCtx :=
        { sdomA := sdomA, b2l := b2l, ctrl := ctrl, lpId := lp.lpId,
          headerId := lp.headerId, exits := lp.exits }
      let isInv := checkInvariant c
      let moved := (blocks.filter fun b => b2l b.bid = lp.lpId).flatMap
        fun b => b.values.filter isInv
      let blocks' := blocks.map fun b =>
        let b := if b2l b.bid = lp.lpId then
          { b with values := b.values.filter fun v => ¬ isInv v } else b
        if b.bid = pre then
          { b with values := b.values ++ moved.map (·.setBlk pre) } else b
      (blocks', moved.length, 0)

/-- The statistics emission at the end of `licm` in licm.go: when
`f.pass.stats > 0`, log the two counters under their keys. -/
def licmStats (stats : Nat) (nmove noprehdr : Nat) : List (String × Nat) :=
  if 0 < stats then [("LICM MOVES", nmove), ("LICM NOPREHDR", noprehdr)]
  else []

end LICM

namespace CSE

/-- The opcode view needed by the CSE pass: `OpPhi` and `OpCopy` are
inspected explicitly; every other opcode is carried opaquely. -/
inductive COp where
  | Phi | Copy | Other (n : Nat)
deriving DecidableEq, Repr, Inhabited

/-- An SSA value as seen by CSE: id, opcode, `AuxInt`, owning block and
type predicates, with arguments embedded structurally. -/
inductive CValue where
  | mk (vid : Nat) (op : COp) (auxInt : Int) (blkId : Nat)
       (isTuple isMemory isVoid : Bool) (args : List CValue)
deriving Repr, Inhabited

def CValue.vid : CValue → Nat | .mk n _ _ _ _ _ _ _ => n
def CValue.op : CValue → COp | .mk _ o _ _ _ _ _ _ => o
def CValue.auxInt : CValue → Int | .mk _ _ x _ _ _ _ _ => x
def CValue.blkId : CValue → Nat | .mk _ _ _ b _ _ _ _ => b
def CValue.isTuple : CValue → Bool | .mk _ _ _ _ t _ _ _ => t
def CValue.isMemory : CValue → Bool | .mk _ _ _ _ _ m _ _ => m
def CValue.isVoid : CValue → Bool | .mk _ _ _ _ _ _ v _ => v
def CValue.args : CValue → List CValue | .mk _ _ _ _ _ _ _ a => a

/-- The inner loop of the dominance-based replacement in cse.go: given
the current unreplaced member `v`, scan the later members of the
(domorder-sorted) class; a `nil` slot is skipped, a member `w` whose
block `v`'s block dominates-or-equals is recorded as rewrite `w → v` and
its slot nilled, and the first non-dominated member stops the scan (the
sort guarantees no later member could be dominated either).  Returns the
updated remainder of the class and the recorded `(w, v)` pairs. -/
def replaceInClass (sdomAE : Nat → Nat → Bool) (v : CValue) :
    List (Option CValue) → List (Option CValue) × List (CValue × CValue)
  | [] => ([], [])
  | none :: rest =>
    let r := replaceInClass sdomAE v rest
    (none :: r.1, r.2)
  | some w :: rest =>
    if sdomAE v.blkId w.blkId then
      let r := replaceInClass sdomAE v rest
      (none :: r.1, (w, v) :: r.2)
    else (some w :: rest, [])

theorem replaceInClass_length (sdomAE : Nat → Nat → Bool) (v : CValue) :
    ∀ l : List (Option CValue), (replaceInClass sdomAE v l).1.length = l.length := by
  intro l
  induction l with
  | nil => rfl
  | cons x rest ih =>
    cases x with
    | none => simpa [replaceInClass] using ih
    | some w =>
      by_cases h : sdomAE v.blkId w.blkId
      · simp [replaceInClass, h, ih]
      · simp [replaceInClass, h]

/-- The outer loop of the dominance-based replacement in cse.go: advance
over the class slots, skipping `nil`s, and run the inner scan for each
unreplaced member, accumulating every recorded rewrite pair.  Every
step consumes exactly one slot (the inner scan preserves the length of
the remainder, see `replaceInClass_length`), so the recursion is driven
by a step counter equal to the slot count. -/
def classRewritesGo (sdomAE : Nat → Nat → Bool) :
    Nat → List (Option CValue) → List (CValue × CValue)
  | _, [] => []
  | 0, _ :: _ => []
  | fuel + 1, none :: rest => classRewritesGo sdomAE fuel rest
  | fuel + 1, some v :: rest =>
    (replaceInClass sdomAE v rest).2 ++
      classRewritesGo sdomAE fuel (replaceInClass sdomAE v rest).1

/-- The outer replacement loop of cse.go over one (domorder-sorted)
class. -/
def classRewrites (sdomAE : Nat → Nat → Bool)
    (l : List (Option CValue)) : List (CValue × CValue) :=
  classRewritesGo sdomAE l.length l

/-- Insertion step of the domorder sort. -/
def insertByDom (domorder : Nat → Nat) (v : CValue) :
    List CValue → List CValue
  | [] => [v]
  | w :: rest =>
    if domorder v.blkId ≤ domorder w.blkId then v :: w :: rest
    else w :: insertByDom domorder v rest

/-- The domorder sort preceding the replacement scan
(`sort.Sort(partitionByDom{e, sdom})` in cse.go), modelled as an
insertion sort: the source uses an unstable quicksort, so the order of
members with equal `domorder` keys is unspecified there, and no
property below depends on which sorted order is produced. -/
def sortByDom (domorder : Nat → Nat) : List CValue → List CValue
  | [] => []
  | v :: rest => insertByDom domorder v (sortByDom domorder rest)

/-- The dominance-based replacement phase of cse.go over the whole
refined partition: sort each class by domorder and collect the recorded
rewrite pairs `(w, v)` (meaning `w` is rewritten to `v`). -/
def cseRewrites (sdomAE : Nat → Nat → Bool) (domorder : Nat → Nat)
    (part : List (List CValue)) : List (CValue × CValue) :=
  part.flatMap fun e => classRewrites sdomAE ((sortByDom domorder e).map some)

/-- `canHoistValue` from cse.go: no φ (the destination can have a
different predecessor count), no tuples (they must drag their selectors
along), no memory-modifying operations, no block control values. -/
def canHoistValue (ctrl : Nat → Option Nat) (v : CValue) : Bool :=
  if v.op = COp.Phi then false
  else if v.isTuple then false
  else if v.isMemory then false
  else if ctrl v.blkId = some v.vid then false
  else true

/-- The filtering loop at the head of `hoistValues` in cse.go: each
class keeps only its hoistable members. -/
def hoistValuesFilter (ctrl : Nat → Option Nat)
    (part : List (List CValue)) : List (List CValue) :=
  part.map fun e => e.filter (canHoistValue ctrl)

/-- The oracles consumed by the hoisting phase: strict dominance
(`sdom.isAncestor`), dominance-or-equal (`sdom.isAncestorEq`), block
predecessors, the anticipated-expression sets `antOut` (contents of the
sparse set, as class ids), and the block → control-value map. -/
structure HoistCtx where
  sdomA : Nat → Nat → Bool
  sdomAE : Nat → Nat → Bool
  preds : Nat → List Nat
  antOut : Nat → List Nat
  ctrl : Nat → Option Nat

/-- The hoisting-phase state: the (filtered) partition and the value →
equivalence-class map (negative ids mark singletons). -/
structure HState where
  partition : List (List CValue)
  valueEqClass : Nat → Int

/-- The candidate-removal loop inside `addHoistCandidate` in cse.go,
with Go's swap-remove idiom modelled exactly: while scanning at index
`i`, an element satisfying `p` is overwritten by the last element and
the slice shrinks by one (the scan then re-tests index `i`); otherwise
`i` advances.  Each iteration decreases `length - i`, so a step counter
of `length + 1` drives the recursion to completion. -/
def swapRemoveGo (p : Nat → Bool) : Nat → Nat → List Nat → List Nat
  | 0, _, ds => ds
  | fuel + 1, i, ds =>
    if h : i < ds.length then
      if p ds[i] then
        swapRemoveGo p fuel i ((ds.set i ds.getLast!).dropLast)
      else swapRemoveGo p fuel (i + 1) ds
    else ds

/-- The swap-remove scan of cse.go's `addHoistCandidate`, started at
index 0. -/
def swapRemoveLoop (p : Nat → Bool) (ds : List Nat) : List Nat :=
  swapRemoveGo p (ds.length + 1) 0 ds

/-- `addHoistCandidate` from cse.go: reject `b` when an existing
candidate dominates-or-equals it; otherwise remove the candidates
strictly dominated by `b` and append `b`. -/
def addHoistCandidate (ctx : HoistCtx) (ds : List Nat) (b : Nat) : List Nat :=
  if ds.any fun d => ctx.sdomAE d b then ds
  else swapRemoveLoop (fun d => ctx.sdomA b d) ds ++ [b]

/-- One iteration of the candidate-collection loop of `hoistPlan` in
cse.go: a class member whose block has exactly one predecessor `d` with
the class anticipated on `d`'s exit contributes `d` as a hoist
candidate; any other member contributes nothing. -/
def planStep (ctx : HoistCtx) (classID : Nat) (ds : List Nat)
    (v : CValue) : List Nat :=
  match ctx.preds v.blkId with
  | [d] =>
    if (ctx.antOut d).contains classID then addHoistCandidate ctx ds d
    else ds
  | _ => ds

/-- The candidate-collection loop of `hoistPlan` in cse.go. -/
def hoistPlanCandidates (ctx : HoistCtx) (st : HState) (classID : Nat) :
    List Nat :=
  (st.partition.getD classID []).foldl (planStep ctx classID) []

/-- The distribution step of `hoistPlan` in cse.go: a member goes to the
first candidate block that strictly dominates its block. -/
def distributeValue (ctx : HoistCtx) (v : CValue) :
    List (Nat × List CValue) → List (Nat × List CValue)
  | [] => []
  | (b, vs) :: rest =>
    if ctx.sdomA b v.blkId then (b, vs ++ [v]) :: rest
    else (b, vs) :: distributeValue ctx v rest

/-- `hoistPlan` from cse.go: collect the candidate destinations, then
distribute each class member to the first candidate that strictly
dominates it.  (At this point of the pass the class carries no `nil`
slots — `hoistValues` has already filtered them out.) -/
def hoistPlan (ctx : HoistCtx) (st : HState) (classID : Nat) :
    List (Nat × List CValue) :=
  let ds := hoistPlanCandidates ctx st classID
  if ds = [] then []
  else
    (st.partition.getD classID []).foldl
      (fun acc v => distributeValue ctx v acc)
      (ds.map fun b => (b, []))

/-- `availableOnExit` from cse.go: the value's defining block
dominates-or-equals `b`. -/
def availableOnExit (ctx : HoistCtx) (b : Nat) (v : CValue) : Bool :=
  ctx.sdomAE v.blkId b

/-- `anyAvailableOnExit` from cse.go. -/
def anyAvailableOnExit (ctx : HoistCtx) (b : Nat) (e : List CValue) :
    Option CValue :=
  e.find? (availableOnExit ctx b)

/-- `availableArgs` from cse.go: replace each argument by a member of
its equivalence class available on exit of `b` (looking through a
`Copy` first); `none` when some argument has no available
representative (the hoist is then skipped). -/
def availableArgs (ctx : HoistCtx) (st : HState) (b : Nat)
    (args : List CValue) : Option (List CValue) :=
  args.mapM fun a =>
    let u := if a.op = COp.Copy then a.args.head! else a
    let id := st.valueEqClass u.vid
    if id < 0 then
      if availableOnExit ctx b u then some u else none
    else
      anyAvailableOnExit ctx b (st.partition.getD id.toNat [])

/-- The per-destination loop of `hoistClass` in cse.go: a destination
absorbing fewer than two members is skipped; otherwise, if every operand
of the representative member has an available substitute at the
destination, a new value with the representative's opcode, `AuxInt` and
type is created in the destination block (ids assigned sequentially from
`fresh`, mirroring the function's value-id counter) and the absorbed
members are replaced by copies of it.  Returns the list of
`(destination block, new value, absorbed members)` triples.  (The
recursive hoisting of argument classes and the `done` bookkeeping in
`hoistClass` only sequence further invocations of this step and do not
alter it.) -/
def hoistStep (ctx : HoistCtx) (st : HState)
    (acc : List (Nat × CValue × List CValue) × Nat)
    (bvs : Nat × List CValue) : List (Nat × CValue × List CValue) × Nat :=
  if bvs.2.length < 2 then acc
  else
    match availableArgs ctx st bvs.1 (bvs.2.head!).args with
    | none => acc
    | some args =>
      (acc.1 ++
        [(bvs.1,
          CValue.mk acc.2 (bvs.2.head!).op (bvs.2.head!).auxInt bvs.1
            (bvs.2.head!).isTuple (bvs.2.head!).isMemory (bvs.2.head!).isVoid
            args,
          bvs.2)],
       acc.2 + 1)

/-- The per-destination creation loop of `hoistClass` (see `hoistStep`);
new-value ids are assigned sequentially from `fresh`, mirroring the
function's value-id counter. -/
def hoistDests (ctx : HoistCtx) (st : HState) (classID : Nat)
    (fresh : Nat) : List (Nat × CValue × List CValue) :=
  ((hoistPlan ctx st classID).foldl (hoistStep ctx st) ([], fresh)).1

end CSE

namespace SCCP

/-- C1: the claim states that every signed or unsigned integer-division
fold with a CONST divisor whose bits are zero (and neither argument
BOTTOM or TOP) returns BOTTOM and never itself divides by zero.  The
code violates this: the zero guard reads `k[1] == 0`, comparing the
divisor's lattice *kind* with 0 (= `latticeTop`, already excluded by the
preceding guard) instead of the divisor's bits `a[1]`, so with both
arguments CONST and divisor bits 0 every integer-division fold falls
through to the Go division `a[0] / a[1]` and panics (modelled as
`none`); the last conjunct shows the panic surfacing through the
expression evaluation of an `OpDiv64` value. -/
theorem divFold_const_zero_divisor_panics :
    foldDiv8 [latticeConst, latticeConst] [1, 0] = none ∧
    foldDiv16 [latticeConst, latticeConst] [1, 0] = none ∧
    foldDiv32 [latticeConst, latticeConst] [1, 0] = none ∧
    foldDiv64 [latticeConst, latticeConst] [1, 0] = none ∧
    foldDivU8 [latticeConst, latticeConst] [1, 0] = none ∧
    foldDivU16 [latticeConst, latticeConst] [1, 0] = none ∧
    foldDivU32 [latticeConst, latticeConst] [1, 0] = none ∧
    foldDivU64 [latticeConst, latticeConst] [1, 0] = none ∧
    evalExpr
      (fun i => if i = 1 then { kind := latticeConst, bits := 1 }
        else { kind := latticeConst, bits := 0 })
      { vid := 3, op := Op.Div64, auxInt := 0, args := [1, 2] } = none := by
  decide

/-- C3: the claim states that `OpCvt32Fto64F` (resp. `OpCvt64Fto32F`)
with a CONST argument folds to the IEEE-754 binary64 (resp. binary32)
bit pattern of the converted value.  The code instead binds both
opcodes to `foldCvt32Fto32`, the float32 → int32 conversion.  At the
binary32 pattern of 1.5 (`0x3FC00000` = 1069547520) the code produces
CONST 1, while the correct widening produces the binary64 pattern of
1.5 (`0x3FF8000000000000` = 4609434218613702656); at that binary64
pattern, `OpCvt64Fto32F` folds to CONST 0 (the low 32 bits decode as
float32 +0.0) instead of the binary32 pattern of 1.5. -/
theorem cvtFloat_folds_misbound :
    getFoldFn Op.Cvt32Fto64F = some (foldFn.fn foldCvt32Fto32) ∧
    getFoldFn Op.Cvt64Fto32F = some (foldFn.fn foldCvt32Fto32) ∧
    evalExpr (fun _ => { kind := latticeConst, bits := 1069547520 })
      { vid := 7, op := Op.Cvt32Fto64F, auxInt := 0, args := [1] } =
      some { kind := latticeConst, bits := 1 } ∧
    cvt32Fto64F_bits 1069547520 = 4609434218613702656 ∧
    ((1 : Int) = 4609434218613702656 → False) ∧
    evalExpr (fun _ => { kind := latticeConst, bits := 4609434218613702656 })
      { vid := 8, op := Op.Cvt64Fto32F, auxInt := 0, args := [1] } =
      some { kind := latticeConst, bits := 0 } :=
  ⟨rfl, rfl, rfl, rfl, by decide, rfl⟩

/-- C4 (counterexample): the claim as stated requires an `OpConst32F`
value to be assigned CONST with bits equal to its `AuxInt`, but `isConst`
covers only `OpConstBool` and the `OpConst8..OpConst64` range, and the
fold table has no entry for `OpConst32F`, so the expression evaluation
assigns BOTTOM. -/
theorem const32F_lattice_counterexample :
    evalExpr (fun _ => { kind := latticeTop, bits := 0 })
      { vid := 4, op := Op.Const32F, auxInt := 1069547520, args := [] } =
      some { kind := latticeBottom, bits := 0 } ∧
    ({ kind := latticeBottom, bits := 0 } : latticeValue) ≠
      { kind := latticeConst, bits := 1069547520 } :=
  ⟨rfl, by decide⟩

/-- C4 (amended): every value whose opcode satisfies `isConst` — that
is, `OpConstBool` or `OpConst8`/`OpConst16`/`OpConst32`/`OpConst64` —
is assigned lattice CONST with bits equal to its `AuxInt`, while
`OpConst32F` and `OpConst64F` values are assigned BOTTOM. -/
theorem const_opcodes_lattice (cells : Nat → latticeValue) (v : Value) :
    (isConst v.op = true →
      evalExpr cells v = some { kind := latticeConst, bits := v.auxInt }) ∧
    ((v.op = Op.Const32F ∨ v.op = Op.Const64F) →
      evalExpr cells v = some { kind := latticeBottom, bits := 0 }) := by
  constructor
  · intro h
    simp [evalExpr, h]
  · intro h
    obtain ⟨vid, op, aux, args⟩ := v
    simp only at h
    rcases h with h | h <;> subst h <;> rfl

/-- Witness for `const_opcodes_lattice` at `OpConst8` with `AuxInt` 7
and at `OpConst64F`. -/
theorem const_opcodes_lattice_witness :
    evalExpr (fun _ => { kind := latticeTop, bits := 0 })
      { vid := 1, op := Op.Const8, auxInt := 7, args := [] } =
      some { kind := latticeConst, bits := 7 } ∧
    evalExpr (fun _ => { kind := latticeTop, bits := 0 })
      { vid := 2, op := Op.Const64F, auxInt := 3, args := [] } =
      some { kind := latticeBottom, bits := 0 } :=
  ⟨(const_opcodes_lattice _ _).1 (by decide),
   (const_opcodes_lattice _ _).2 (Or.inr rfl)⟩

/-- C5: for an `OpAndB` value, if either argument's lattice value is
CONST with bits 0 the evaluated lattice value is CONST 0 regardless of
the other argument; dually, for an `OpOrB` value, if either argument is
CONST with bits 1 the result is CONST 1. -/
theorem andB_orB_shortcircuit (cells : Nat → latticeValue) (x y : Nat)
    (v : Value) (hargs : v.args = [x, y]) :
    (v.op = Op.AndB →
      ((cells x).kind = latticeConst ∧ (cells x).bits = 0) ∨
        ((cells y).kind = latticeConst ∧ (cells y).bits = 0) →
      evalExpr cells v = some { kind := latticeConst, bits := 0 }) ∧
    (v.op = Op.OrB →
      ((cells x).kind = latticeConst ∧ (cells x).bits = 1) ∨
        ((cells y).kind = latticeConst ∧ (cells y).bits = 1) →
      evalExpr cells v = some { kind := latticeConst, bits := 1 }) := by
  obtain ⟨vid, op, aux, args⟩ := v
  simp only at hargs
  subst hargs
  constructor
  · intro hop hc
    simp only at hop
    subst hop
    show foldAndB [(cells x).kind, (cells y).kind]
      [(cells x).bits, (cells y).bits] = some { kind := latticeConst, bits := 0 }
    simp only [foldAndB, List.getElem!_cons_zero, List.getElem!_cons_succ]
    rw [if_pos hc]
  · intro hop hc
    simp only at hop
    subst hop
    show foldOrB [(cells x).kind, (cells y).kind]
      [(cells x).bits, (cells y).bits] = some { kind := latticeConst, bits := 1 }
    simp only [foldOrB, List.getElem!_cons_zero, List.getElem!_cons_succ]
    rw [if_pos hc]

/-- Witness for `andB_orB_shortcircuit`: an `AndB` whose first argument
is CONST 0 while the second is TOP folds to CONST 0, and an `OrB` whose
second argument is CONST 1 while the first is TOP folds to CONST 1. -/
theorem andB_orB_shortcircuit_witness :
    evalExpr
      (fun i => if i = 1 then { kind := latticeConst, bits := 0 }
        else { kind := latticeTop, bits := 0 })
      { vid := 3, op := Op.AndB, auxInt := 0, args := [1, 2] } =
      some { kind := latticeConst, bits := 0 } ∧
    evalExpr
      (fun i => if i = 1 then { kind := latticeConst, bits := 1 }
        else { kind := latticeTop, bits := 0 })
      { vid := 3, op := Op.OrB, auxInt := 0, args := [2, 1] } =
      some { kind := latticeConst, bits := 1 } :=
  ⟨(andB_orB_shortcircuit _ 1 2 _ rfl).1 rfl (Or.inl (by decide)),
   (andB_orB_shortcircuit _ 2 1 _ rfl).2 rfl (Or.inr (by decide))⟩

/-- C9: during `visitExprs`, after the block's non-φ values are
visited, a block of kind `Plain` or `First` has its single successor
edge appended to the flow worklist (so it is the last element of the
resulting worklist). -/
theorem visitExprs_pushes_plain_first (s : SccpState) (b : Block)
    (s' : SccpState) (h : visitExprs s b = some s')
    (hk : b.kind = BlockKind.Plain ∨ b.kind = BlockKind.First) :
    s'.flowlist.getLast? = some b.succs[0]! := by
  unfold visitExprs at h
  rcases Option.map_eq_some'.mp h with ⟨s0, _, rfl⟩
  rw [if_pos hk]
  exact List.getLast?_concat _

def c9State : SccpState :=
  { cells := fun _ => { kind := latticeTop, bits := 0 }, use := fun _ => [],
    ctl := fun _ => [], flowlist := [], ssalist := [] }

def c9Block : Block :=
  { bid := 1, kind := BlockKind.Plain, succs := [{ b := 2, i := 0 }],
    values := [] }

def c9After : SccpState :=
  { cells := fun _ => { kind := latticeTop, bits := 0 }, use := fun _ => [],
    ctl := fun _ => [], flowlist := [{ b := 2, i := 0 }], ssalist := [] }

/-- Witness for `visitExprs_pushes_plain_first` on a concrete `Plain`
block. -/
theorem visitExprs_pushes_plain_first_witness :
    c9After.flowlist.getLast? = some c9Block.succs[0]! :=
  visitExprs_pushes_plain_first c9State c9Block c9After rfl (Or.inl rfl)

end SCCP

namespace LICM

/-- C2: the claim states that a division/modulo value is classified
speculatively safe only if its divisor `Args[1]` is a constant opcode
with *nonzero* `AuxInt`.  The code tests `a.AuxInt == 0` (contradicting
its own comment "Allow division and modulo operations with constant
non-zero divisors"): an `OpDiv64` (or `OpMod32`, or `OpDiv32F`) whose
divisor is a constant *zero* is classified safe, while a divisor that
is the constant 7 is classified unsafe. -/
theorem specExecSafe_requires_auxInt_zero :
    specExecSafe (.mk 1 Op.Div64 0 false 5
      [.mk 2 Op.Phi 0 false 5 [], .mk 3 Op.Const64 0 false 1 []]) = true ∧
    specExecSafe (.mk 1 Op.Div64 0 false 5
      [.mk 2 Op.Phi 0 false 5 [], .mk 3 Op.Const64 7 false 1 []]) = false ∧
    specExecSafe (.mk 1 Op.Mod32 0 false 5
      [.mk 2 Op.Phi 0 false 5 [], .mk 3 Op.Const32 0 false 1 []]) = true ∧
    specExecSafe (.mk 1 Op.Div32F 0 false 5
      [.mk 2 Op.Phi 0 false 5 [], .mk 3 Op.Const32F 0 false 1 []]) = true := by
  decide

theorem findPre_filter_nil (sdomAE : Nat → Nat → Bool) (hd : Nat) :
    ∀ (l : List Nat) (pre : Option Nat),
      l.filter (fun p => !sdomAE hd p) = [] →
      findPre sdomAE hd l pre = pre := by
  intro l
  induction l with
  | nil => intro pre _; rfl
  | cons p rest ih =>
    intro pre hf
    rw [List.filter_cons] at hf
    by_cases h : sdomAE hd p
    · rw [if_neg (by simp [h])] at hf
      unfold findPre
      rw [if_pos h]
      exact ih _ hf
    · rw [if_pos (by simp [h])] at hf
      exact absurd hf (List.cons_ne_nil _ _)

theorem findPre_some_none (sdomAE : Nat → Nat → Bool) (hd : Nat) :
    ∀ (l : List Nat) (q : Nat),
      l.filter (fun p => !sdomAE hd p) ≠ [] →
      findPre sdomAE hd l (some q) = none := by
  intro l
  induction l with
  | nil => intro q hf; simp at hf
  | cons p rest ih =>
    intro q hf
    by_cases h : sdomAE hd p
    · rw [List.filter_cons, if_neg (by simp [h])] at hf
      unfold findPre
      rw [if_pos h]
      exact ih _ hf
    · unfold findPre
      rw [if_neg h]

theorem findPre_two_none (sdomAE : Nat → Nat → Bool) (hd : Nat) :
    ∀ l : List Nat,
      2 ≤ (l.filter (fun p => !sdomAE hd p)).length →
      findPre sdomAE hd l none = none := by
  intro l
  induction l with
  | nil => intro hf; simp at hf
  | cons p rest ih =>
    intro hf
    rw [List.filter_cons] at hf
    by_cases h : sdomAE hd p
    · rw [if_neg (by simp [h])] at hf
      unfold findPre
      rw [if_pos h]
      exact ih hf
    · rw [if_pos (by simp [h])] at hf
      rw [List.length_cons] at hf
      unfold findPre
      rw [if_neg h]
      refine findPre_some_none sdomAE hd rest p ?_
      intro hnil
      rw [hnil, List.length_nil] at hf
      omega

/-- C8: for a loop without calls whose header has zero or more than one
predecessor not dominated-or-equalled by the header, `moveInvariants`
moves nothing (the block list is returned unchanged and the move count
is 0), counts one loop with no pre-header, and — when `stats > 0` — the
totals are logged under the keys `"LICM MOVES"` and `"LICM NOPREHDR"`. -/
theorem moveInvariants_no_preheader (sdomA sdomAE : Nat → Nat → Bool)
    (b2l : Nat → Nat) (ctrl : Nat → Option Nat) (lp : Loop)
    (blocks : List LBlock) (hcall : lp.containsCall = false)
    (hpre : (lp.headerPreds.filter (fun p => !sdomAE lp.headerId p)).length ≠ 1)
    (stats nm nh : Nat) (hs : 0 < stats) :
    moveInvariantsOwn sdomA sdomAE b2l ctrl lp blocks = (blocks, 0, 1) ∧
    licmStats stats nm nh = [("LICM MOVES", nm), ("LICM NOPREHDR", nh)] := by
  have hnone : findPre sdomAE lp.headerId lp.headerPreds none = none := by
    rcases Nat.lt_or_ge
      (lp.headerPreds.filter (fun p => !sdomAE lp.headerId p)).length 2 with h | h
    · have h0 : (lp.headerPreds.filter (fun p => !sdomAE lp.headerId p)).length = 0 := by
        omega
      rw [List.length_eq_zero] at h0
      exact findPre_filter_nil _ _ _ _ h0
    · exact findPre_two_none _ _ _ h
  constructor
  · simp [moveInvariantsOwn, hcall, hnone]
  · simp [licmStats, hs]

def c8Loop : Loop :=
  { lpId := 1, headerId := 1, headerPreds := [2, 3], containsCall := false,
    exits := [] }

/-- Witness for `moveInvariants_no_preheader`: a loop header with two
predecessors, neither dominated by the header. -/
theorem moveInvariants_no_preheader_witness :
    moveInvariantsOwn (fun _ _ => false) (fun _ _ => false) (fun _ => 0)
      (fun _ => none) c8Loop [] = ([], 0, 1) ∧
    licmStats 1 0 1 = [("LICM MOVES", 0), ("LICM NOPREHDR", 1)] :=
  moveInvariants_no_preheader _ _ _ _ c8Loop [] rfl (by decide) 1 0 1
    (by decide)

end LICM

namespace CSE

theorem replaceInClass_rewrites (sdomAE : Nat → Nat → Bool) (v : CValue) :
    ∀ (l : List (Option CValue)) (p : CValue × CValue),
      p ∈ (replaceInClass sdomAE v l).2 →
      p.2 = v ∧ some p.1 ∈ l ∧ sdomAE v.blkId p.1.blkId = true := by
  intro l
  induction l with
  | nil => intro p hp; simp [replaceInClass] at hp
  | cons x rest ih =>
    intro p hp
    cases x with
    | none =>
      simp only [replaceInClass] at hp
      rcases ih p hp with ⟨h1, h2, h3⟩
      exact ⟨h1, List.mem_cons_of_mem _ h2, h3⟩
    | some w =>
      by_cases h : sdomAE v.blkId w.blkId
      · simp only [replaceInClass, if_pos h] at hp
        rcases List.mem_cons.mp hp with rfl | hp
        · exact ⟨rfl, List.mem_cons_self _ _, h⟩
        · rcases ih p hp with ⟨h1, h2, h3⟩
          exact ⟨h1, List.mem_cons_of_mem _ h2, h3⟩
      · simp only [replaceInClass, if_neg h] at hp
        simp at hp

theorem replaceInClass_subset (sdomAE : Nat → Nat → Bool) (v : CValue) :
    ∀ (l : List (Option CValue)) (x : CValue),
      some x ∈ (replaceInClass sdomAE v l).1 → some x ∈ l := by
  intro l
  induction l with
  | nil => intro x hx; simp [replaceInClass] at hx
  | cons y rest ih =>
    intro x hx
    cases y with
    | none =>
      simp only [replaceInClass] at hx
      rcases List.mem_cons.mp hx with hx | hx
      · exact absurd hx (by simp)
      · exact List.mem_cons_of_mem _ (ih x hx)
    | some w =>
      by_cases h : sdomAE v.blkId w.blkId
      · simp only [replaceInClass, if_pos h] at hx
        rcases List.mem_cons.mp hx with hx | hx
        · exact absurd hx (by simp)
        · exact List.mem_cons_of_mem _ (ih x hx)
      · simpa only [replaceInClass, if_neg h] using hx

theorem classRewritesGo_spec (sdomAE : Nat → Nat → Bool) :
    ∀ (fuel : Nat) (l : List (Option CValue)) (p : CValue × CValue),
      p ∈ classRewritesGo sdomAE fuel l →
      some p.1 ∈ l ∧ some p.2 ∈ l ∧ sdomAE p.2.blkId p.1.blkId = true := by
  intro fuel
  induction fuel with
  | zero =>
    intro l p hp
    cases l with
    | nil => simp [classRewritesGo] at hp
    | cons x rest => simp [classRewritesGo] at hp
  | succ fuel ih =>
    intro l p hp
    match l with
    | [] => simp [classRewritesGo] at hp
    | none :: rest =>
      simp only [classRewritesGo] at hp
      rcases ih rest p hp with ⟨h1, h2, h3⟩
      exact ⟨List.mem_cons_of_mem _ h1, List.mem_cons_of_mem _ h2, h3⟩
    | some v :: rest =>
      simp only [classRewritesGo, List.mem_append] at hp
      rcases hp with hp | hp
      · rcases replaceInClass_rewrites sdomAE v rest p hp with ⟨h1, h2, h3⟩
        exact ⟨List.mem_cons_of_mem _ h2,
          by rw [h1]; exact List.mem_cons_self _ _,
          by rw [h1]; exact h3⟩
      · rcases ih _ p hp with ⟨h1, h2, h3⟩
        exact ⟨List.mem_cons_of_mem _ (replaceInClass_subset sdomAE v rest p.1 h1),
          List.mem_cons_of_mem _ (replaceInClass_subset sdomAE v rest p.2 h2), h3⟩

theorem insertByDom_perm (domorder : Nat → Nat) (v : CValue) :
    ∀ l : List CValue, (insertByDom domorder v l).Perm (v :: l) := by
  intro l
  induction l with
  | nil => exact List.Perm.refl _
  | cons w rest ih =>
    by_cases h : domorder v.blkId ≤ domorder w.blkId
    · simp only [insertByDom, if_pos h]
      exact List.Perm.refl _
    · simp only [insertByDom, if_neg h]
      exact (ih.cons w).trans (List.Perm.swap _ _ _)

theorem sortByDom_perm (domorder : Nat → Nat) :
    ∀ l : List CValue, (sortByDom domorder l).Perm l := by
  intro l
  induction l with
  | nil => exact List.Perm.refl _
  | cons v rest ih =>
    exact (insertByDom_perm domorder v _).trans (ih.cons v)

/-- C6: every rewrite pair `(W, V)` recorded by the dominance-based
replacement phase (meaning `W` is rewritten to `V`) satisfies: `V` and
`W` belong to the same refined equivalence class of the partition, and
`V`'s block dominates-or-equals `W`'s block under the dominance oracle
consulted at recording time. -/
theorem cse_replacement_sound (sdomAE : Nat → Nat → Bool)
    (domorder : Nat → Nat) (part : List (List CValue))
    (p : CValue × CValue) (hp : p ∈ cseRewrites sdomAE domorder part) :
    (∃ e ∈ part, p.1 ∈ e ∧ p.2 ∈ e) ∧ sdomAE p.2.blkId p.1.blkId = true := by
  simp only [cseRewrites, List.mem_flatMap] at hp
  rcases hp with ⟨e, he, hpe⟩
  rcases classRewritesGo_spec sdomAE _ _ p hpe with ⟨h1, h2, h3⟩
  have hmem : ∀ x : CValue, some x ∈ (sortByDom domorder e).map some → x ∈ e := by
    intro x hx
    rcases List.mem_map.mp hx with ⟨y, hy, hxy⟩
    cases hxy
    exact (sortByDom_perm domorder e).mem_iff.mp hy
  exact ⟨⟨e, he, hmem _ h1, hmem _ h2⟩, h3⟩

def c6v1 : CValue := .mk 1 (.Other 5) 0 1 false false false []

def c6v2 : CValue := .mk 2 (.Other 5) 0 2 false false false []

def c6part : List (List CValue) := [[c6v1, c6v2]]

/-- Witness for `cse_replacement_sound`: a two-member class whose first
member's block dominates the second's records the rewrite
`c6v2 → c6v1`. -/
theorem cse_replacement_sound_witness :
    (∃ e ∈ c6part, c6v2 ∈ e ∧ c6v1 ∈ e) ∧
    (fun a b => decide (a ≤ b)) c6v1.blkId c6v2.blkId = true :=
  cse_replacement_sound (fun a b => decide (a ≤ b)) (fun b => b) c6part
    (c6v2, c6v1) (List.Mem.head _)

end CSE

namespace CSE

theorem swapRemoveGo_subset (p : Nat → Bool) :
    ∀ (fuel i : Nat) (ds : List Nat) (x : Nat),
      x ∈ swapRemoveGo p fuel i ds → x ∈ ds := by
  intro fuel
  induction fuel with
  | zero => intro i ds x hx; exact hx
  | succ fuel ih =>
    intro i ds x hx
    unfold swapRemoveGo at hx
    split at hx
    · rename_i hi
      split at hx
      · have hx2 := List.dropLast_subset _ (ih _ _ _ hx)
        rcases List.mem_or_eq_of_mem_set hx2 with hx3 | rfl
        · exact hx3
        · have hne : ds ≠ [] := by
            intro hnil
            rw [hnil] at hi
            simp at hi
          rw [List.getLast!_of_getLast? (List.getLast?_eq_getLast ds hne)]
          exact List.getLast_mem hne
      · exact ih _ _ _ hx
    · exact hx

theorem swapRemoveLoop_subset (p : Nat → Bool) (ds : List Nat) (x : Nat)
    (hx : x ∈ swapRemoveLoop p ds) : x ∈ ds :=
  swapRemoveGo_subset p _ 0 ds x hx

theorem addHoistCandidate_subset (ctx : HoistCtx) (ds : List Nat) (b x : Nat)
    (hx : x ∈ addHoistCandidate ctx ds b) : x ∈ ds ∨ x = b := by
  unfold addHoistCandidate at hx
  split at hx
  · exact Or.inl hx
  · rcases List.mem_append.mp hx with hx | hx
    · exact Or.inl (swapRemoveLoop_subset _ _ _ hx)
    · exact Or.inr (List.mem_singleton.mp hx)

theorem planStep_mem (ctx : HoistCtx) (classID : Nat)
    (acc : List Nat) (v : CValue) (b : Nat)
    (hb : b ∈ planStep ctx classID acc v) :
    b ∈ acc ∨ (ctx.antOut b).contains classID = true := by
  unfold planStep at hb
  split at hb
  · rename_i d heq
    by_cases hc : (ctx.antOut d).contains classID
    · rw [if_pos hc] at hb
      rcases addHoistCandidate_subset ctx acc d b hb with h | rfl
      · exact Or.inl h
      · exact Or.inr hc
    · rw [if_neg hc] at hb
      exact Or.inl hb
  · exact Or.inl hb

theorem hoistPlanCandidates_antOut (ctx : HoistCtx) (st : HState)
    (classID : Nat) :
    ∀ b ∈ hoistPlanCandidates ctx st classID,
      (ctx.antOut b).contains classID = true := by
  unfold hoistPlanCandidates
  suffices h : ∀ (l : List CValue) (acc : List Nat),
      (∀ b ∈ acc, (ctx.antOut b).contains classID = true) →
      ∀ b ∈ l.foldl (planStep ctx classID) acc,
        (ctx.antOut b).contains classID = true by
    intro b hb
    exact h _ [] (by simp) b hb
  intro l
  induction l with
  | nil => intro acc hacc b hb; exact hacc b hb
  | cons v rest ih =>
    intro acc hacc b hb
    rw [List.foldl_cons] at hb
    refine ih _ ?_ b hb
    intro b' hb'
    rcases planStep_mem ctx classID acc v b' hb' with h | h
    · exact hacc b' h
    · exact h

theorem distributeValue_mem (ctx : HoistCtx) (v : CValue) :
    ∀ (acc : List (Nat × List CValue)) (q : Nat × List CValue),
      q ∈ distributeValue ctx v acc →
      ∃ q' ∈ acc, q.1 = q'.1 ∧
        (q.2 = q'.2 ∨ (q.2 = q'.2 ++ [v] ∧ ctx.sdomA q'.1 v.blkId = true)) := by
  intro acc
  induction acc with
  | nil => intro q hq; simp [distributeValue] at hq
  | cons hd rest ih =>
    intro q hq
    obtain ⟨bb, vs⟩ := hd
    by_cases h : ctx.sdomA bb v.blkId
    · simp only [distributeValue, if_pos h] at hq
      rcases List.mem_cons.mp hq with rfl | hq
      · exact ⟨(bb, vs), List.mem_cons_self _ _, rfl, Or.inr ⟨rfl, h⟩⟩
      · exact ⟨q, List.mem_cons_of_mem _ hq, rfl, Or.inl rfl⟩
    · simp only [distributeValue, if_neg h] at hq
      rcases List.mem_cons.mp hq with rfl | hq
      · exact ⟨(bb, vs), List.mem_cons_self _ _, rfl, Or.inl rfl⟩
      · rcases ih q hq with ⟨q', hq', h1, h2⟩
        exact ⟨q', List.mem_cons_of_mem _ hq', h1, h2⟩

theorem distributeFold_inv (ctx : HoistCtx) (P : Nat → Prop)
    (cls : List CValue) :
    ∀ (l : List CValue), (∀ v ∈ l, v ∈ cls) →
      ∀ (acc : List (Nat × List CValue)),
        (∀ q ∈ acc, P q.1 ∧ ∀ v ∈ q.2, v ∈ cls ∧ ctx.sdomA q.1 v.blkId = true) →
        ∀ q ∈ l.foldl (fun acc v => distributeValue ctx v acc) acc,
          P q.1 ∧ ∀ v ∈ q.2, v ∈ cls ∧ ctx.sdomA q.1 v.blkId = true := by
  intro l
  induction l with
  | nil => intro _ acc hacc q hq; exact hacc q hq
  | cons w rest ih =>
    intro hl acc hacc q hq
    rw [List.foldl_cons] at hq
    refine ih (fun v hv => hl v (List.mem_cons_of_mem _ hv)) _ ?_ q hq
    intro q' hq'
    rcases distributeValue_mem ctx w acc q' hq' with ⟨q'', hq'', h1, h2⟩
    rcases hacc q'' hq'' with ⟨hp, hvs⟩
    rw [h1]
    refine ⟨hp, ?_⟩
    intro v hv
    rcases h2 with h2 | ⟨h2, hdom⟩
    · rw [h2] at hv
      exact hvs v hv
    · rw [h2] at hv
      rcases List.mem_append.mp hv with hv | hv
      · exact hvs v hv
      · rw [List.mem_singleton.mp hv]
        exact ⟨hl w (List.mem_cons_self _ _), hdom⟩

theorem hoistPlan_mem (ctx : HoistCtx) (st : HState) (classID : Nat) :
    ∀ bvs ∈ hoistPlan ctx st classID,
      (ctx.antOut bvs.1).contains classID = true ∧
      ∀ v ∈ bvs.2, v ∈ st.partition.getD classID [] ∧
        ctx.sdomA bvs.1 v.blkId = true := by
  intro bvs hb
  simp only [hoistPlan] at hb
  split at hb
  · simp at hb
  · refine distributeFold_inv ctx
      (fun b => (ctx.antOut b).contains classID = true)
      (st.partition.getD classID []) _ (fun v hv => hv) _ ?_ bvs hb
    intro q hq
    rcases List.mem_map.mp hq with ⟨b, hbmem, rfl⟩
    exact ⟨hoistPlanCandidates_antOut ctx st classID b hbmem, by simp⟩

theorem availableArgs_spec (ctx : HoistCtx) (st : HState) (b : Nat) :
    ∀ (args res : List CValue), availableArgs ctx st b args = some res →
      ∀ a ∈ res, availableOnExit ctx b a = true := by
  intro args
  induction args with
  | nil =>
    intro res h a ha
    simp only [availableArgs, List.mapM_nil, Option.pure_def,
      Option.some.injEq] at h
    subst h
    simp at ha
  | cons x rest ih =>
    intro res h a ha
    simp only [availableArgs, List.mapM_cons, Option.pure_def,
      Option.bind_eq_bind] at h
    rcases Option.bind_eq_some.mp h with ⟨y, hy, h2⟩
    rcases Option.bind_eq_some.mp h2 with ⟨ys, hys, h3⟩
    simp only [Option.some.injEq] at h3
    subst h3
    rcases List.mem_cons.mp ha with rfl | ha
    · by_cases hid :
          st.valueEqClass (if x.op = COp.Copy then x.args.head! else x).vid < 0
      · rw [if_pos hid] at hy
        by_cases hav :
            availableOnExit ctx b (if x.op = COp.Copy then x.args.head! else x)
        · rw [if_pos hav] at hy
          cases hy
          exact hav
        · rw [if_neg hav] at hy
          cases hy
      · rw [if_neg hid] at hy
        exact List.find?_some hy
    · exact ih ys hys a ha

theorem hoistStep_fold_mem (ctx : HoistCtx) (st : HState) :
    ∀ (l : List (Nat × List CValue))
      (acc : List (Nat × CValue × List CValue) × Nat)
      (d : Nat × CValue × List CValue),
      d ∈ (l.foldl (hoistStep ctx st) acc).1 →
      d ∈ acc.1 ∨ ∃ bvs ∈ l, ∃ args nid,
        2 ≤ bvs.2.length ∧
        availableArgs ctx st bvs.1 (bvs.2.head!).args = some args ∧
        d = (bvs.1,
          CValue.mk nid (bvs.2.head!).op (bvs.2.head!).auxInt bvs.1
            (bvs.2.head!).isTuple (bvs.2.head!).isMemory (bvs.2.head!).isVoid
            args,
          bvs.2) := by
  intro l
  induction l with
  | nil => intro acc d hd; exact Or.inl hd
  | cons bvs rest ih =>
    intro acc d hd
    rw [List.foldl_cons] at hd
    rcases ih _ d hd with h | ⟨bvs', hmem, args, nid, h1, h2, h3⟩
    · unfold hoistStep at h
      split at h
      · exact Or.inl h
      · split at h
        · exact Or.inl h
        · rename_i hlen args0 harm
          simp only [List.mem_append, List.mem_singleton] at h
          rcases h with h | h
          · exact Or.inl h
          · subst h
            exact Or.inr ⟨bvs, List.mem_cons_self _ _, args0, acc.2,
              by omega, harm, rfl⟩
    · exact Or.inr ⟨bvs', List.mem_cons_of_mem _ hmem, args, nid, h1, h2, h3⟩

/-- C7 (amended): whenever the hoisting step creates a new value `N` in
a destination block `D` for class `C`, then: `D` absorbed at least two
members of `C`; every member absorbed by `D` (each value distributed to
`D` and replaced by a copy of `N`) belongs to `C` and is strictly
dominated by `D`; `C` is in `antOut[D]`; `N` lives in `D`; and every
argument of `N` is available on exit of `D` (its defining block
dominates-or-equals `D`). -/
theorem hoist_dest_sound (ctx : HoistCtx) (st : HState)
    (classID fresh : Nat) (d : Nat × CValue × List CValue)
    (hd : d ∈ hoistDests ctx st classID fresh) :
    2 ≤ d.2.2.length ∧
    (∀ v ∈ d.2.2, v ∈ st.partition.getD classID [] ∧
      ctx.sdomA d.1 v.blkId = true) ∧
    (ctx.antOut d.1).contains classID = true ∧
    d.2.1.blkId = d.1 ∧
    (∀ a ∈ d.2.1.args, ctx.sdomAE a.blkId d.1 = true) := by
  unfold hoistDests at hd
  rcases hoistStep_fold_mem ctx st _ _ d hd with h | ⟨bvs, hmem, args, nid, h1, h2, h3⟩
  · simp at h
  · subst h3
    obtain ⟨hant, hvs⟩ := hoistPlan_mem ctx st classID bvs hmem
    refine ⟨h1, fun v hv => hvs v hv, hant, rfl, ?_⟩
    intro a ha
    have h4 := availableArgs_spec ctx st bvs.1 _ _ h2 a ha
    simpa [availableOnExit] using h4

def c7ctx : HoistCtx :=
  { sdomA := fun a b => decide (a = 1 ∧ (b = 2 ∨ b = 3)),
    sdomAE := fun a b => decide (a = b ∨ (a = 1 ∧ (b = 2 ∨ b = 3))),
    preds := fun b =>
      if b = 2 then [1] else if b = 3 then [1] else if b = 4 then [9] else [],
    antOut := fun b => if b = 1 then [0] else [],
    ctrl := fun _ => none }

def c7m1 : CValue := .mk 1 (.Other 7) 0 2 false false false []

def c7m2 : CValue := .mk 2 (.Other 7) 0 3 false false false []

def c7m3 : CValue := .mk 3 (.Other 7) 0 4 false false false []

def c7st : HState :=
  { partition := [[c7m1, c7m2, c7m3]], valueEqClass := fun _ => -1 }

def c7new : CValue := .mk 10 (.Other 7) 0 1 false false false []

/-- C7 (counterexample): in the concrete state `c7st` the hoisting step
creates the new value `c7new` for class 0 in destination block 1, which
absorbs members `c7m1` and `c7m2` — but the original member `c7m3` of
the class (whose block 4 is not dominated by block 1) is not dominated
by the destination, contradicting the claim that *every* original
member of the class is dominated by the destination. -/
theorem hoist_absorbed_counterexample :
    hoistDests c7ctx c7st 0 10 = [(1, c7new, [c7m1, c7m2])] ∧
    c7m3 ∈ c7st.partition.getD 0 [] ∧
    c7ctx.sdomA 1 c7m3.blkId = false := by
  refine ⟨rfl, ?_, rfl⟩
  show c7m3 ∈ [c7m1, c7m2, c7m3]
  exact List.mem_cons_of_mem _ (List.mem_cons_of_mem _ (List.mem_cons_self _ _))

/-- Witness for `hoist_dest_sound` on the concrete hoist recorded in
`hoist_absorbed_counterexample`. -/
theorem hoist_dest_sound_witness :
    2 ≤ ([c7m1, c7m2] : List CValue).length ∧
    (∀ v ∈ ([c7m1, c7m2] : List CValue), v ∈ c7st.partition.getD 0 [] ∧
      c7ctx.sdomA 1 v.blkId = true) ∧
    (c7ctx.antOut 1).contains 0 = true ∧
    c7new.blkId = 1 ∧
    (∀ a ∈ c7new.args, c7ctx.sdomAE a.blkId 1 = true) :=
  hoist_dest_sound c7ctx c7st 0 10 (1, c7new, [c7m1, c7m2])
    (List.Mem.head _)

theorem canHoistValue_props (ctrl : Nat → Option Nat) (v : CValue)
    (h : canHoistValue ctrl v = true) :
    v.op ≠ COp.Phi ∧ v.isTuple = false ∧ v.isMemory = false := by
  unfold canHoistValue at h
  split at h
  · exact absurd h (by simp)
  · split at h
    · exact absurd h (by simp)
    · split at h
      · exact absurd h (by simp)
      · rename_i h1 h2 h3
        exact ⟨h1, by simpa using h2, by simpa using h3⟩

/-- C10: the filtering at the head of `hoistValues` leaves only members
satisfying `canHoistValue` in every class, and the hoisting step — run
on a class all of whose members satisfy `canHoistValue` — only ever
creates values that are not φ, not tuple-typed and not memory-typed
(the new value copies the opcode and type of an absorbed member, which
passed the filter). -/
theorem hoist_creates_only_hoistable :
    (∀ (ctrl : Nat → Option Nat) (part : List (List CValue))
      (e : List CValue), e ∈ hoistValuesFilter ctrl part →
      ∀ v ∈ e, canHoistValue ctrl v = true) ∧
    (∀ (ctx : HoistCtx) (st : HState) (classID fresh : Nat),
      (∀ v ∈ st.partition.getD classID [], canHoistValue ctx.ctrl v = true) →
      ∀ d ∈ hoistDests ctx st classID fresh,
        d.2.1.op ≠ COp.Phi ∧ d.2.1.isTuple = false ∧
          d.2.1.isMemory = false) := by
  constructor
  · intro ctrl part e he v hv
    simp only [hoistValuesFilter, List.mem_map] at he
    rcases he with ⟨e', _, rfl⟩
    exact (List.mem_filter.mp hv).2
  · intro ctx st classID fresh hfil d hd
    unfold hoistDests at hd
    rcases hoistStep_fold_mem ctx st _ _ d hd with h | ⟨bvs, hmem, args, nid, h1, h2, h3⟩
    · simp at h
    · obtain ⟨-, hvs⟩ := hoistPlan_mem ctx st classID bvs hmem
      have hhead : bvs.2.head! ∈ bvs.2 := by
        cases hb2 : bvs.2 with
        | nil => rw [hb2] at h1; simp at h1
        | cons a rest2 => simp [List.head!]
      have hch := hfil _ (hvs _ hhead).1
      rcases canHoistValue_props ctx.ctrl _ hch with ⟨hphi, htup, hmemo⟩
      subst h3
      exact ⟨hphi, htup, hmemo⟩

/-- Witness for `hoist_creates_only_hoistable`: the filter of
`hoistValues` on a one-class partition, and the concrete hoist of
`hoist_absorbed_counterexample` creating a non-φ, non-tuple, non-memory
value. -/
theorem hoist_creates_only_hoistable_witness :
    (∀ v ∈ ([c7m1] : List CValue), canHoistValue (fun _ => none) v = true) ∧
    (c7new.op ≠ COp.Phi ∧ c7new.isTuple = false ∧ c7new.isMemory = false) :=
  ⟨hoist_creates_only_hoistable.1 (fun _ => none) [[c7m1]] [c7m1]
      (List.Mem.head _),
   hoist_creates_only_hoistable.2 c7ctx c7st 0 10 (by decide)
      (1, c7new, [c7m1, c7m2]) (List.Mem.head _)⟩

end CSE
